import Mathlib

/-!
Verification development for the accumulable crate (sources: src/lib.rs,
src/iter.rs, src/stream.rs, src/try_stream.rs).

Sources (iterators and streams) are modelled as finite lists of items;
pulling or polling the source consumes the head of the list.  The
asynchronous engines are embedded as pure step functions over an explicit
`AccumulatedState` together with the remaining source; a poll either
returns a ready output with the updated state and remaining source, or
reaches the contract-violation abort of the original code (the
"Accumulated polled after completion" abort), modelled by the
`PollResult.panicked` marker.  The `&mut self` operations of the trait
contracts are embedded as pure functions returning the updated value.
-/

section Contracts

/-- Embedding of the trait `Accumulable` of src/lib.rs: the required
unconditional-merge primitive `accumulate_from`. -/
structure Accumulable (Lhs Rhs : Type) where
  accumulate_from : Lhs → Rhs → Lhs

/-- Derived convenience operation `accumulate` of trait `Accumulable`
(src/lib.rs): merge in place, then return the accumulator. -/
def Accumulable.accumulate {Lhs Rhs : Type} (inst : Accumulable Lhs Rhs)
    (lhs : Lhs) (rhs : Rhs) : Lhs :=
  inst.accumulate_from lhs rhs

/-- Embedding of the trait `MaybeAccumulable` of src/lib.rs: the
conditional-merge primitive `maybe_accumulate_from`; the Bool is the
acceptance flag, the second component the (possibly updated)
accumulator. -/
structure MaybeAccumulable (Lhs Rhs : Type) where
  maybe_accumulate_from : Lhs → Rhs → Bool × Lhs

/-- Derived convenience operation `maybe_accumulate` of trait
`MaybeAccumulable` (src/lib.rs): `Ok(self)` when accepted, `Err(self)`
when rejected. -/
def MaybeAccumulable.maybe_accumulate {Lhs Rhs : Type}
    (inst : MaybeAccumulable Lhs Rhs) (lhs : Lhs) (rhs : Rhs) : Except Lhs Lhs :=
  if (inst.maybe_accumulate_from lhs rhs).1 then
    Except.ok (inst.maybe_accumulate_from lhs rhs).2
  else
    Except.error (inst.maybe_accumulate_from lhs rhs).2

/-- Modelled from the spec: the `neutral()` identity-seeded eager-reducer
variant the spec describes.  No such operation or engine variant exists
anywhere in src/ (src/lib.rs declares only `Accumulable` and
`MaybeAccumulable`); per the spec's words it would fold the whole source
starting from the identity value, so it is total and returns the identity
itself on an empty source. -/
def accumulateFromNeutral {Lhs Rhs : Type} (neutral : Lhs)
    (af : Lhs → Rhs → Lhs) (xs : List Rhs) : Lhs :=
  xs.foldl af neutral

end Contracts

section Engines

variable {Lhs Rhs V E : Type}

/-- Embedding of `Accumulate::accumulate` of src/iter.rs: seed the
accumulator from the first item via `Lhs::from` (here `fr`), fold every
further item in with the unconditional merge `af`; `none` when the source
produced no item. -/
def accumulate (fr : Rhs → Lhs) (af : Lhs → Rhs → Lhs) : List Rhs → Option Lhs
  | [] => none
  | x :: xs => some (xs.foldl af (fr x))

/-- Embedding of `AccumulatedState` of src/stream.rs (shared by
src/try_stream.rs). -/
inductive AccumulatedState (Lhs : Type) where
  | Uninit
  | Accumulable (item : Lhs)
  | Consumed
deriving DecidableEq

/-- `AccumulatedState::consume` (src/stream.rs): replace the state by
`Consumed`, returning the accumulator if one was open. -/
def AccumulatedState.consume : AccumulatedState Lhs → AccumulatedState Lhs × Option Lhs
  | .Accumulable item => (.Consumed, some item)
  | _ => (.Consumed, none)

/-- `AccumulatedState::reaccumulable` (src/stream.rs): replace the state by
`Accumulable lhs`, returning the accumulator that was open. -/
def AccumulatedState.reaccumulable (s : AccumulatedState Lhs) (lhs : Lhs) :
    AccumulatedState Lhs × Option Lhs :=
  match s with
  | .Accumulable item => (.Accumulable lhs, some item)
  | _ => (.Accumulable lhs, none)

/-- `AccumulatedState::reinit` (src/stream.rs): replace the state by
`Uninit`, returning the accumulator that was open. -/
def AccumulatedState.reinit : AccumulatedState Lhs → AccumulatedState Lhs × Option Lhs
  | .Accumulable item => (.Uninit, some item)
  | _ => (.Uninit, none)

/-- `AccumulatedState::is_consumed` (src/stream.rs); this is what the
`FusedFuture`/`FusedStream` `is_terminated` queries report. -/
def AccumulatedState.is_consumed : AccumulatedState Lhs → Bool
  | .Consumed => true
  | _ => false

/-- One outcome of a poll of an embedded state machine: a ready output
together with the successor state, or the fatal contract-violation abort
of the original code. -/
inductive PollResult (σ α : Type) where
  | ready (s : σ) (out : α)
  | panicked
deriving DecidableEq

/-- Embedding of `Future::poll` for `Accumulated` (src/stream.rs): the
asynchronous eager reducer.  The poll loop runs until the source is
exhausted, so with a list source one call drains the list; the `Consumed`
arm is the post-completion abort. -/
def Accumulated.poll (fr : Rhs → Lhs) (af : Lhs → Rhs → Lhs) :
    AccumulatedState Lhs → List Rhs →
      PollResult (AccumulatedState Lhs × List Rhs) (Option Lhs)
  | .Uninit, [] =>
      let r := AccumulatedState.consume (.Uninit : AccumulatedState Lhs)
      .ready (r.1, []) r.2
  | .Uninit, first :: rest => Accumulated.poll fr af (.Accumulable (fr first)) rest
  | .Accumulable inner, [] =>
      let r := AccumulatedState.consume (.Accumulable inner : AccumulatedState Lhs)
      .ready (r.1, []) r.2
  | .Accumulable inner, item :: rest =>
      Accumulated.poll fr af (.Accumulable (af inner item)) rest
  | .Consumed, _ => .panicked

/-- Embedding of the inner while-let-peek loop of
`Iterator::next for PartiallyAccumulated` (src/iter.rs): keep offering the
peeked item to `maybe_accumulate_from`; on acceptance consume it and
continue, on rejection stop, leaving the rejected item unconsumed. -/
def PartiallyAccumulated.nextGo (mf : Lhs → Rhs → Bool × Lhs) :
    Lhs → List Rhs → Lhs × List Rhs
  | lhs, [] => (lhs, [])
  | lhs, rhs :: rest =>
      if (mf lhs rhs).1 then PartiallyAccumulated.nextGo mf (mf lhs rhs).2 rest
      else ((mf lhs rhs).2, rhs :: rest)

/-- Embedding of `Iterator::next for PartiallyAccumulated` (src/iter.rs):
pull one item to seed a run (or report `none` on an exhausted source),
then grow the run with the lookahead loop.  Returns the yielded output
together with the remaining source. -/
def PartiallyAccumulated.next (fr : Rhs → Lhs) (mf : Lhs → Rhs → Bool × Lhs) :
    List Rhs → Option Lhs × List Rhs
  | [] => (none, [])
  | first :: rest =>
      (some (PartiallyAccumulated.nextGo mf (fr first) rest).1,
       (PartiallyAccumulated.nextGo mf (fr first) rest).2)

/-- Embedding of `Stream::poll_next for PartiallyAccumulated`
(src/stream.rs): the asynchronous lazy run-splitter's poll loop.  The
`Consumed` arm is the post-termination abort. -/
def PartiallyAccumulated.poll_next (fr : Rhs → Lhs) (mf : Lhs → Rhs → Bool × Lhs) :
    AccumulatedState Lhs → List Rhs →
      PollResult (AccumulatedState Lhs × List Rhs) (Option Lhs)
  | .Uninit, [] =>
      let r := AccumulatedState.consume (.Uninit : AccumulatedState Lhs)
      .ready (r.1, []) r.2
  | .Uninit, first :: rest =>
      PartiallyAccumulated.poll_next fr mf (.Accumulable (fr first)) rest
  | .Accumulable inner, [] =>
      let r := AccumulatedState.reinit (.Accumulable inner : AccumulatedState Lhs)
      .ready (r.1, []) r.2
  | .Accumulable inner, item :: rest =>
      if (mf inner item).1 then
        PartiallyAccumulated.poll_next fr mf (.Accumulable (mf inner item).2) rest
      else
        let r := AccumulatedState.reaccumulable
          (.Accumulable (mf inner item).2 : AccumulatedState Lhs) (fr item)
        .ready (r.1, rest) r.2
  | .Consumed, _ => .panicked

/-- Embedding of `Stream::poll_next for TryPartiallyAccumulated`
(src/try_stream.rs): the fallible asynchronous lazy run-splitter.  Source
items are `Except E V`; `Ok(lhs_opt).transpose()` of the original becomes
`Option.map Except.ok`.  On an `Err` item the code breaks with
`Some(Err(err))` without modifying the state. -/
def TryPartiallyAccumulated.poll_next (fr : V → Lhs) (mf : Lhs → V → Bool × Lhs) :
    AccumulatedState Lhs → List (Except E V) →
      PollResult (AccumulatedState Lhs × List (Except E V)) (Option (Except E Lhs))
  | .Uninit, [] =>
      let r := AccumulatedState.consume (.Uninit : AccumulatedState Lhs)
      .ready (r.1, []) (r.2.map Except.ok)
  | .Uninit, Except.ok first :: rest =>
      TryPartiallyAccumulated.poll_next fr mf (.Accumulable (fr first)) rest
  | .Uninit, Except.error err :: rest =>
      .ready (.Uninit, rest) (some (Except.error err))
  | .Accumulable inner, [] =>
      let r := AccumulatedState.reinit (.Accumulable inner : AccumulatedState Lhs)
      .ready (r.1, []) (r.2.map Except.ok)
  | .Accumulable inner, Except.ok item :: rest =>
      if (mf inner item).1 then
        TryPartiallyAccumulated.poll_next fr mf (.Accumulable (mf inner item).2) rest
      else
        let r := AccumulatedState.reaccumulable
          (.Accumulable (mf inner item).2 : AccumulatedState Lhs) (fr item)
        .ready (r.1, rest) (r.2.map Except.ok)
  | .Accumulable inner, Except.error err :: rest =>
      .ready (.Accumulable inner, rest) (some (Except.error err))
  | .Consumed, _ => .panicked

end Engines

section DerivedSequences

variable {Lhs Rhs : Type}

/-- The tail of the output sequence of the synchronous lazy run-splitter,
starting from an open accumulator `lhs`: grow the run while
`maybe_accumulate_from` accepts, on rejection yield the run's accumulator
and re-seed the next run from the rejected item, on exhaustion yield the
final accumulator. -/
def splitGo (fr : Rhs → Lhs) (mf : Lhs → Rhs → Bool × Lhs) :
    Lhs → List Rhs → List Lhs
  | lhs, [] => [lhs]
  | lhs, rhs :: rest =>
      if (mf lhs rhs).1 then splitGo fr mf (mf lhs rhs).2 rest
      else (mf lhs rhs).2 :: splitGo fr mf (fr rhs) rest

/-- The full output sequence of the synchronous lazy run-splitter
`PartiallyAccumulated` of src/iter.rs over a finite source (the values its
`next` yields until it reports `none`). -/
def splitOutputs (fr : Rhs → Lhs) (mf : Lhs → Rhs → Bool × Lhs) :
    List Rhs → List Lhs
  | [] => []
  | x :: xs => splitGo fr mf (fr x) xs

/-- Fuelled collection of the outputs of the asynchronous lazy
run-splitter: poll repeatedly, gathering each ready `some` output, and
stop at the end-of-stream output (or at the abort).  The fuel only bounds
the number of polls; `2 * length + 2` polls always suffice, since every
output-producing poll either consumes source items or closes the open
accumulator. -/
def paOutputsF (fr : Rhs → Lhs) (mf : Lhs → Rhs → Bool × Lhs) :
    Nat → AccumulatedState Lhs → List Rhs → List Lhs
  | 0, _, _ => []
  | fuel + 1, s, xs =>
      match PartiallyAccumulated.poll_next fr mf s xs with
      | .panicked => []
      | .ready _ none => []
      | .ready (s1, xs1) (some lhs) => lhs :: paOutputsF fr mf fuel s1 xs1

/-- The full output sequence of the asynchronous lazy run-splitter
`PartiallyAccumulated` of src/stream.rs from a given state over a finite
source. -/
def paOutputs (fr : Rhs → Lhs) (mf : Lhs → Rhs → Bool × Lhs)
    (s : AccumulatedState Lhs) (xs : List Rhs) : List Lhs :=
  paOutputsF fr mf (2 * xs.length + 2) s xs

/-- Reference decomposition of a source into one run: the run's final
accumulator, the items consumed into the run after its seed, and the
remaining source (beginning with the first rejected item, if any). -/
def runGo (mf : Lhs → Rhs → Bool × Lhs) :
    Lhs → List Rhs → Lhs × List Rhs × List Rhs
  | lhs, [] => (lhs, [], [])
  | lhs, rhs :: rest =>
      if (mf lhs rhs).1 then
        ((runGo mf (mf lhs rhs).2 rest).1,
         rhs :: (runGo mf (mf lhs rhs).2 rest).2.1,
         (runGo mf (mf lhs rhs).2 rest).2.2)
      else ((mf lhs rhs).2, [], rhs :: rest)

/-- Fuelled reference decomposition of a source into its runs; each entry
pairs a run's final accumulator with the run's items (seed first).  The
fuel only bounds the number of runs; `length` runs always suffice since
every run consumes at least its seed item. -/
def runSplitF (fr : Rhs → Lhs) (mf : Lhs → Rhs → Bool × Lhs) :
    Nat → List Rhs → List (Lhs × List Rhs)
  | 0, _ => []
  | _ + 1, [] => []
  | fuel + 1, x :: xs =>
      ((runGo mf (fr x) xs).1, x :: (runGo mf (fr x) xs).2.1) ::
        runSplitF fr mf fuel (runGo mf (fr x) xs).2.2

/-- Reference decomposition of a source into its maximal runs. -/
def runSplit (fr : Rhs → Lhs) (mf : Lhs → Rhs → Bool × Lhs)
    (xs : List Rhs) : List (Lhs × List Rhs) :=
  runSplitF fr mf xs.length xs

/-- Fold a run's non-seed items through the conditional merge, keeping the
updated accumulator of each call. -/
def chainAcc (mf : Lhs → Rhs → Bool × Lhs) : Lhs → List Rhs → Lhs
  | lhs, [] => lhs
  | lhs, rhs :: rest => chainAcc mf (mf lhs rhs).2 rest

/-- Whether every item of a run tail is accepted, in order, by the
conditional merge into the evolving accumulator. -/
def chainAccepts (mf : Lhs → Rhs → Bool × Lhs) : Lhs → List Rhs → Bool
  | _, [] => true
  | lhs, rhs :: rest => (mf lhs rhs).1 && chainAccepts mf (mf lhs rhs).2 rest

/-- Well-formedness of a run decomposition: every run is non-empty and is
seeded from its first item; every item after the seed was accepted by
`maybe_accumulate_from` into the evolving accumulator; the first item of
each following run is exactly the item the previous run's accumulator
rejected; a final run's accumulator is the plain accepted chain. -/
def runsOk (fr : Rhs → Lhs) (mf : Lhs → Rhs → Bool × Lhs) :
    List (Lhs × List Rhs) → Prop
  | [] => True
  | (_, []) :: _ => False
  | (acc, x :: c) :: [] =>
      chainAccepts mf (fr x) c = true ∧ acc = chainAcc mf (fr x) c
  | (_, _ :: _) :: (_, []) :: _ => False
  | (acc, x :: c) :: (acc2, y :: c2) :: tail =>
      chainAccepts mf (fr x) c = true ∧
      (mf (chainAcc mf (fr x) c) y).1 = false ∧
      acc = (mf (chainAcc mf (fr x) c) y).2 ∧
      runsOk fr mf ((acc2, y :: c2) :: tail)

end DerivedSequences

section Fixtures

/-- The `Volume` test fixture (a newtype over u64); modelled as Nat with
wrapping addition. -/
abbrev Volume := Nat

/-- `Accumulable for Volume` of the test fixtures: sum of volumes
(u64 wrapping). -/
def Volume.accumulate_from (a b : Volume) : Volume :=
  (a + b) % 18446744073709551616

/-- The `VolumeSize` test fixture: a volume classified against the
threshold `N`. -/
inductive VolumeSize (N : Nat) : Type where
  | Large (v : Volume)
  | Small (v : Volume)
deriving DecidableEq

/-- `VolumeSize::new`: classify a volume (`Large` when `v >= N`). -/
def VolumeSize.new (N : Nat) (v : Volume) : VolumeSize N :=
  if v ≥ N then .Large v else .Small v

/-- `VolumeSize::volume_value`. -/
def VolumeSize.volume_value {N : Nat} : VolumeSize N → Volume
  | .Large x => x
  | .Small x => x

/-- `Accumulable for VolumeSize`: sum the volumes and reclassify. -/
def VolumeSize.accumulate_from {N : Nat} (a b : VolumeSize N) : VolumeSize N :=
  VolumeSize.new N (Volume.accumulate_from a.volume_value b.volume_value)

/-- `MaybeAccumulable for VolumeSize`: accept (and merge) only while the
accumulator is still `Small`. -/
def VolumeSize.maybe_accumulate_from {N : Nat} (a b : VolumeSize N) :
    Bool × VolumeSize N :=
  match a with
  | .Small _ => (true, a.accumulate_from b)
  | _ => (false, a)

/-- A conditional merge that always rejects but, against the contract,
mutates the accumulator while rejecting; used to exhibit that preserving
merge totals needs the rejected-leaves-unchanged half of the contract. -/
def mfMutating : Nat → Nat → Bool × Nat :=
  fun a _ => (false, a + 100)

end Fixtures

section EngineLemmas

variable {Lhs Rhs V E : Type}

/-- From an open accumulator, the asynchronous eager reducer drains the
source and completes with the left fold of the unconditional merge. -/
theorem Accumulated.poll_from_accumulable (fr : Rhs → Lhs) (af : Lhs → Rhs → Lhs) :
    ∀ (xs : List Rhs) (l : Lhs),
      Accumulated.poll fr af (.Accumulable l) xs =
        .ready (.Consumed, []) (some (xs.foldl af l))
  | [], _ => rfl
  | x :: xs, l => Accumulated.poll_from_accumulable fr af xs (af l x)

/-- Whenever the asynchronous eager reducer returns a ready result, its
state has moved to `Consumed`. -/
theorem Accumulated.poll_ready_state (fr : Rhs → Lhs) (af : Lhs → Rhs → Lhs) :
    ∀ (xs : List Rhs) (s : AccumulatedState Lhs) (s' : AccumulatedState Lhs)
      (xs' : List Rhs) (out : Option Lhs),
      Accumulated.poll fr af s xs = .ready (s', xs') out → s' = .Consumed := by
  intro xs
  induction xs with
  | nil =>
    intro s s' xs' out h
    cases s with
    | Uninit =>
      have h2 : PollResult.ready ((.Consumed : AccumulatedState Lhs), ([] : List Rhs))
          (none : Option Lhs) = .ready (s', xs') out := h
      injection h2 with hs ho
      exact (congrArg Prod.fst hs).symm
    | Accumulable inner =>
      have h2 : PollResult.ready ((.Consumed : AccumulatedState Lhs), ([] : List Rhs))
          (some inner) = .ready (s', xs') out := h
      injection h2 with hs ho
      exact (congrArg Prod.fst hs).symm
    | Consumed => exact PollResult.noConfusion h
  | cons x xs ih =>
    intro s s' xs' out h
    cases s with
    | Uninit => exact ih _ _ _ _ h
    | Accumulable inner => exact ih _ _ _ _ h
    | Consumed => exact PollResult.noConfusion h

/-- A poll from the `Consumed` state is the post-completion abort. -/
theorem Accumulated.poll_consumed (fr : Rhs → Lhs) (af : Lhs → Rhs → Lhs)
    (ys : List Rhs) :
    Accumulated.poll fr af .Consumed ys = .panicked := by
  cases ys <;> rfl

/-- Whenever the asynchronous lazy run-splitter reports end of stream
(a ready `none`), its state has moved to `Consumed`. -/
theorem PartiallyAccumulated.poll_next_none_state (fr : Rhs → Lhs)
    (mf : Lhs → Rhs → Bool × Lhs) :
    ∀ (xs : List Rhs) (s : AccumulatedState Lhs) (s' : AccumulatedState Lhs)
      (xs' : List Rhs),
      PartiallyAccumulated.poll_next fr mf s xs = .ready (s', xs') none →
        s' = .Consumed := by
  intro xs
  induction xs with
  | nil =>
    intro s s' xs' h
    cases s with
    | Uninit =>
      have h2 : PollResult.ready ((.Consumed : AccumulatedState Lhs), ([] : List Rhs))
          (none : Option Lhs) = .ready (s', xs') none := h
      injection h2 with hs ho
      exact (congrArg Prod.fst hs).symm
    | Accumulable inner =>
      have h2 : PollResult.ready ((.Uninit : AccumulatedState Lhs), ([] : List Rhs))
          (some inner) = .ready (s', xs') none := h
      injection h2 with hs ho
      exact Option.noConfusion ho
    | Consumed => exact PollResult.noConfusion h
  | cons x xs ih =>
    intro s s' xs' h
    cases s with
    | Uninit => exact ih _ _ _ h
    | Accumulable inner =>
      by_cases hb : (mf inner x).1
      · rw [show PartiallyAccumulated.poll_next fr mf (.Accumulable inner) (x :: xs) =
            PartiallyAccumulated.poll_next fr mf (.Accumulable (mf inner x).2) xs by
              simp [PartiallyAccumulated.poll_next, hb]] at h
        exact ih _ _ _ h
      · simp [PartiallyAccumulated.poll_next, hb, AccumulatedState.reaccumulable] at h
    | Consumed => exact PollResult.noConfusion h

/-- A poll of the asynchronous lazy run-splitter from the `Consumed` state
is the post-termination abort. -/
theorem PartiallyAccumulated.poll_next_consumed (fr : Rhs → Lhs)
    (mf : Lhs → Rhs → Bool × Lhs) (ys : List Rhs) :
    PartiallyAccumulated.poll_next fr mf .Consumed ys = .panicked := by
  cases ys <;> rfl

end EngineLemmas

section SplitterLemmas

variable {Lhs Rhs : Type}

/-- One `next` call of the synchronous splitter yields the head of
`splitGo` and leaves the source from which `splitGo` continues. -/
theorem splitGo_eq_nextGo (fr : Rhs → Lhs) (mf : Lhs → Rhs → Bool × Lhs) :
    ∀ (xs : List Rhs) (lhs : Lhs),
      splitGo fr mf lhs xs =
        (PartiallyAccumulated.nextGo mf lhs xs).1 ::
          splitOutputs fr mf (PartiallyAccumulated.nextGo mf lhs xs).2 := by
  intro xs
  induction xs with
  | nil => intro lhs; rfl
  | cons r rest ih =>
    intro lhs
    by_cases hb : (mf lhs r).1
    · simp only [splitGo, PartiallyAccumulated.nextGo, hb, if_true]
      exact ih _
    · simp only [splitGo, PartiallyAccumulated.nextGo, hb, if_false]
      rfl

/-- The output sequence of the synchronous splitter is what iterating its
`next` collects: an empty source ends the sequence, otherwise the yielded
run is followed by the outputs over the remaining source. -/
theorem splitOutputs_eq_next (fr : Rhs → Lhs) (mf : Lhs → Rhs → Bool × Lhs)
    (xs : List Rhs) :
    splitOutputs fr mf xs =
      (match PartiallyAccumulated.next fr mf xs with
       | (none, _) => []
       | (some l, rest) => l :: splitOutputs fr mf rest) := by
  cases xs with
  | nil => rfl
  | cons x xs => exact splitGo_eq_nextGo fr mf xs (fr x)

/-- Unfolding of one successor step of the fuelled asynchronous-output
collection. -/
theorem paOutputsF_succ (fr : Rhs → Lhs) (mf : Lhs → Rhs → Bool × Lhs)
    (fuel : Nat) (s : AccumulatedState Lhs) (xs : List Rhs) :
    paOutputsF fr mf (fuel + 1) s xs =
      (match PartiallyAccumulated.poll_next fr mf s xs with
       | .panicked => []
       | .ready _ none => []
       | .ready (s1, xs1) (some lhs) => lhs :: paOutputsF fr mf fuel s1 xs1) := rfl

/-- With enough fuel, collecting the asynchronous splitter's outputs from
an open accumulator agrees with the synchronous run-splitting. -/
theorem paOutputsF_from_accumulable (fr : Rhs → Lhs) (mf : Lhs → Rhs → Bool × Lhs) :
    ∀ (xs : List Rhs) (lhs : Lhs) (fuel : Nat),
      2 * xs.length + 1 ≤ fuel →
        paOutputsF fr mf fuel (.Accumulable lhs) xs = splitGo fr mf lhs xs := by
  intro xs
  induction xs with
  | nil =>
    intro lhs fuel hfuel
    match fuel, hfuel with
    | f + 1, _ =>
      rw [paOutputsF_succ]
      show lhs :: paOutputsF fr mf f .Uninit [] = [lhs]
      cases f <;> rfl
  | cons r rest ih =>
    intro lhs fuel hfuel
    match fuel, hfuel with
    | f + 1, hfuel =>
      by_cases hb : (mf lhs r).1
      · have hpoll : PartiallyAccumulated.poll_next fr mf (.Accumulable lhs) (r :: rest) =
            PartiallyAccumulated.poll_next fr mf (.Accumulable (mf lhs r).2) rest := by
          simp [PartiallyAccumulated.poll_next, hb]
        rw [paOutputsF_succ, hpoll, ← paOutputsF_succ]
        rw [ih (mf lhs r).2 (f + 1) (by simp [List.length_cons] at hfuel; omega)]
        simp [splitGo, hb]
      · have hpoll : PartiallyAccumulated.poll_next fr mf (.Accumulable lhs) (r :: rest) =
            .ready (.Accumulable (fr r), rest) (some (mf lhs r).2) := by
          simp [PartiallyAccumulated.poll_next, hb, AccumulatedState.reaccumulable]
        rw [paOutputsF_succ, hpoll]
        show (mf lhs r).2 :: paOutputsF fr mf f (.Accumulable (fr r)) rest =
          splitGo fr mf lhs (r :: rest)
        rw [ih (fr r) f (by simp [List.length_cons] at hfuel; omega)]
        simp [splitGo, hb]

/-- The asynchronous lazy run-splitter, started fresh, produces exactly
the same output sequence as the synchronous lazy run-splitter. -/
theorem paOutputs_eq_splitOutputs (fr : Rhs → Lhs) (mf : Lhs → Rhs → Bool × Lhs)
    (xs : List Rhs) :
    paOutputs fr mf .Uninit xs = splitOutputs fr mf xs := by
  cases xs with
  | nil => rfl
  | cons x xs =>
    show paOutputsF fr mf (2 * (x :: xs).length + 2) .Uninit (x :: xs) =
      splitOutputs fr mf (x :: xs)
    have hfuel : 2 * (x :: xs).length + 2 = (2 * xs.length + 3) + 1 := by
      simp [List.length_cons]; omega
    have hpoll : PartiallyAccumulated.poll_next fr mf (.Uninit : AccumulatedState Lhs)
        (x :: xs) = PartiallyAccumulated.poll_next fr mf (.Accumulable (fr x)) xs := rfl
    rw [hfuel, paOutputsF_succ, hpoll, ← paOutputsF_succ]
    exact paOutputsF_from_accumulable fr mf xs (fr x) (2 * xs.length + 3 + 1) (by omega)

end SplitterLemmas

section RunLemmas

variable {Lhs Rhs : Type}

/-- The items a run consumes, followed by the remaining source, restore
the original source: nothing is dropped, duplicated or reordered. -/
theorem runGo_append (mf : Lhs → Rhs → Bool × Lhs) :
    ∀ (xs : List Rhs) (lhs : Lhs),
      (runGo mf lhs xs).2.1 ++ (runGo mf lhs xs).2.2 = xs := by
  intro xs
  induction xs with
  | nil => intro lhs; rfl
  | cons r rest ih =>
    intro lhs
    by_cases hb : (mf lhs r).1
    · simp only [runGo, hb, if_true, List.cons_append, List.cons.injEq, true_and]
      exact ih _
    · simp [runGo, hb]

/-- A run's remaining source is no longer than the source it started
from. -/
theorem runGo_rest_le (mf : Lhs → Rhs → Bool × Lhs) (xs : List Rhs) (lhs : Lhs) :
    (runGo mf lhs xs).2.2.length ≤ xs.length := by
  have h := congrArg List.length (runGo_append mf xs lhs)
  simp [List.length_append] at h
  omega

/-- Every item a run consumes after its seed is accepted, in order, by the
conditional merge into the evolving accumulator. -/
theorem runGo_accepts (mf : Lhs → Rhs → Bool × Lhs) :
    ∀ (xs : List Rhs) (lhs : Lhs),
      chainAccepts mf lhs (runGo mf lhs xs).2.1 = true := by
  intro xs
  induction xs with
  | nil => intro lhs; rfl
  | cons r rest ih =>
    intro lhs
    by_cases hb : (mf lhs r).1
    · simp only [runGo, hb, if_true]
      simp only [chainAccepts, hb, Bool.true_and]
      exact ih _
    · simp [runGo, hb, chainAccepts]

/-- A run closed by source exhaustion carries the plain accepted-chain
accumulator. -/
theorem runGo_final (mf : Lhs → Rhs → Bool × Lhs) :
    ∀ (xs : List Rhs) (lhs : Lhs),
      (runGo mf lhs xs).2.2 = [] →
        (runGo mf lhs xs).1 = chainAcc mf lhs (runGo mf lhs xs).2.1 := by
  intro xs
  induction xs with
  | nil => intro lhs _; rfl
  | cons r rest ih =>
    intro lhs h
    by_cases hb : (mf lhs r).1
    · simp only [runGo, hb, if_true] at h ⊢
      simp only [chainAcc]
      exact ih _ h
    · simp [runGo, hb] at h
  
/-- A run closed by a rejection was closed by rejecting exactly the head
of the remaining source, and carries the accumulator that rejecting call
returned. -/
theorem runGo_reject (mf : Lhs → Rhs → Bool × Lhs) :
    ∀ (xs : List Rhs) (lhs : Lhs) (y : Rhs) (r : List Rhs),
      (runGo mf lhs xs).2.2 = y :: r →
        (mf (chainAcc mf lhs (runGo mf lhs xs).2.1) y).1 = false ∧
        (runGo mf lhs xs).1 = (mf (chainAcc mf lhs (runGo mf lhs xs).2.1) y).2 := by
  intro xs
  induction xs with
  | nil => intro lhs y r h; exact absurd h (by simp [runGo])
  | cons a rest ih
  =>
    intro lhs y r h
    by_cases hb : (mf lhs a).1
    · simp only [runGo, hb, if_true] at h ⊢
      simp only [chainAcc]
      exact ih _ _ _ h
    · simp only [runGo, hb, if_false] at h ⊢
      obtain ⟨hy, hr⟩ := List.cons.injEq .. ▸ h
      subst hy
      simp only [chainAcc]
      exact ⟨Bool.of_not_eq_true hb, rfl⟩

/-- The fuelled run decomposition does not depend on the fuel once the
fuel covers the source's length. -/
theorem runSplitF_stable (fr : Rhs → Lhs) (mf : Lhs → Rhs → Bool × Lhs) :
    ∀ (f g : Nat) (ys : List Rhs), ys.length ≤ f → ys.length ≤ g →
      runSplitF fr mf f ys = runSplitF fr mf g ys := by
  intro f
  induction f with
  | zero =>
    intro g ys hf _
    have : ys = [] := List.length_eq_zero.mp (Nat.le_zero.mp hf)
    subst this
    cases g <;> rfl
  | succ f ih =>
    intro g ys hf hg
    cases ys with
    | nil => cases g <;> rfl
    | cons x xs =>
      match g, hg with
      | g + 1, hg =>
        simp only [runSplitF, List.cons.injEq, true_and]
        exact ih g (runGo mf (fr x) xs).2.2
          (le_trans (runGo_rest_le mf xs (fr x)) (by simpa using Nat.succ_le_succ_iff.mp hf))
          (le_trans (runGo_rest_le mf xs (fr x)) (by simpa using Nat.succ_le_succ_iff.mp hg))

/-- Unfolding of the run decomposition on a non-empty source. -/
theorem runSplit_cons (fr : Rhs → Lhs) (mf : Lhs → Rhs → Bool × Lhs)
    (x : Rhs) (xs : List Rhs) :
    runSplit fr mf (x :: xs) =
      ((runGo mf (fr x) xs).1, x :: (runGo mf (fr x) xs).2.1) ::
        runSplit fr mf (runGo mf (fr x) xs).2.2 := by
  show runSplitF fr mf (x :: xs).length (x :: xs) = _
  simp only [List.length_cons, runSplitF, List.cons.injEq, true_and]
  exact runSplitF_stable fr mf xs.length (runGo mf (fr x) xs).2.2.length _
    (runGo_rest_le mf xs (fr x)) le_rfl

end RunLemmas

section RunCorrespondence

variable {Lhs Rhs : Type}

/-- The synchronous splitter's outputs from an open accumulator are the
head run's accumulator followed by the accumulators of the remaining
runs. -/
theorem splitGo_eq_runSplit (fr : Rhs → Lhs) (mf : Lhs → Rhs → Bool × Lhs) :
    ∀ (xs : List Rhs) (lhs : Lhs),
      splitGo fr mf lhs xs =
        (runGo mf lhs xs).1 ::
          (runSplit fr mf (runGo mf lhs xs).2.2).map Prod.fst := by
  intro xs
  induction xs with
  | nil => intro lhs; rfl
  | cons r rest ih =>
    intro lhs
    by_cases hb : (mf lhs r).1
    · simp only [splitGo, runGo, hb, if_true]
      exact ih _
    · rw [show splitGo fr mf lhs (r :: rest) = (mf lhs r).2 :: splitGo fr mf (fr r) rest by
        simp [splitGo, hb]]
      rw [show runGo mf lhs (r :: rest) = ((mf lhs r).2, [], r :: rest) by simp [runGo, hb]]
      show (mf lhs r).2 :: splitGo fr mf (fr r) rest =
        (mf lhs r).2 :: (runSplit fr mf (r :: rest)).map Prod.fst
      rw [runSplit_cons, List.map_cons]
      simp only [List.cons.injEq, true_and]
      exact ih (fr r)

/-- The synchronous splitter's output sequence is exactly the accumulator
of each run of the reference decomposition, in order. -/
theorem splitOutputs_eq_runSplit (fr : Rhs → Lhs) (mf : Lhs → Rhs → Bool × Lhs)
    (xs : List Rhs) :
    splitOutputs fr mf xs = (runSplit fr mf xs).map Prod.fst := by
  cases xs with
  | nil => rfl
  | cons x xs =>
    rw [runSplit_cons, List.map_cons]
    exact splitGo_eq_runSplit fr mf xs (fr x)

/-- Concatenating the runs of the reference decomposition restores the
source: the runs partition the input in order. -/
theorem runSplit_flatten (fr : Rhs → Lhs) (mf : Lhs → Rhs → Bool × Lhs) :
    ∀ (n : Nat) (xs : List Rhs), xs.length ≤ n →
      ((runSplit fr mf xs).map Prod.snd).flatten = xs := by
  intro n
  induction n with
  | zero =>
    intro xs h
    have : xs = [] := List.length_eq_zero.mp (Nat.le_zero.mp h)
    subst this
    rfl
  | succ n ih =>
    intro xs h
    cases xs with
    | nil => rfl
    | cons x xs =>
      rw [runSplit_cons, List.map_cons, List.flatten_cons]
      rw [ih (runGo mf (fr x) xs).2.2
        (le_trans (runGo_rest_le mf xs (fr x)) (by simpa using Nat.succ_le_succ_iff.mp h))]
      show x :: ((runGo mf (fr x) xs).2.1 ++ (runGo mf (fr x) xs).2.2) = x :: xs
      rw [runGo_append]

/-- The reference decomposition is a well-formed run decomposition: runs
are non-empty, every non-seed item was accepted in order, and each next
run starts exactly at the first rejected item. -/
theorem runSplit_runsOk (fr : Rhs → Lhs) (mf : Lhs → Rhs → Bool × Lhs) :
    ∀ (n : Nat) (xs : List Rhs), xs.length ≤ n →
      runsOk fr mf (runSplit fr mf xs) := by
  intro n
  induction n with
  | zero =>
    intro xs h
    have : xs = [] := List.length_eq_zero.mp (Nat.le_zero.mp h)
    subst this
    trivial
  | succ n ih =>
    intro xs h
    cases xs with
    | nil => trivial
    | cons x xs =>
      rw [runSplit_cons]
      have hxs : xs.length ≤ n := by simpa using Nat.succ_le_succ_iff.mp h
      have hrest := runGo_rest_le mf xs (fr x)
      cases h22 : (runGo mf (fr x) xs).2.2 with
      | nil =>
        show runsOk fr mf (((runGo mf (fr x) xs).1, x :: (runGo mf (fr x) xs).2.1) :: [])
        exact ⟨runGo_accepts mf xs (fr x), runGo_final mf xs (fr x) h22⟩
      | cons y r =>
        rw [runSplit_cons]
        have hrj := runGo_reject mf xs (fr x) y r h22
        refine ⟨runGo_accepts mf xs (fr x), hrj.1, hrj.2, ?_⟩
        rw [← runSplit_cons]
        exact ih (y :: r) (by rw [h22] at hrest; omega)

end RunCorrespondence

section MergeTotalLemmas

variable {α : Type}

/-- Left folds over an associative merge peel off the left argument. -/
theorem foldl_assoc_peel (af : α → α → α)
    (hassoc : ∀ a b c, af (af a b) c = af a (af b c)) :
    ∀ (l : List α) (a b : α), List.foldl af (af a b) l = af a (List.foldl af b l) := by
  intro l
  induction l with
  | nil => intro a b; rfl
  | cons x xs ih =>
    intro a b
    simp only [List.foldl_cons]
    rw [hassoc, ih]

/-- Under the contract hypotheses (accepted conditional merges perform the
unconditional merge; rejected ones leave the accumulator unchanged),
folding the splitter's outputs into a prior accumulator equals folding the
raw items in directly. -/
theorem splitGo_foldl (af : α → α → α) (mf : α → α → Bool × α)
    (hassoc : ∀ a b c, af (af a b) c = af a (af b c))
    (haccept : ∀ a b, (mf a b).1 = true → (mf a b).2 = af a b)
    (hreject : ∀ a b, (mf a b).1 = false → (mf a b).2 = a) :
    ∀ (xs : List α) (lhs b : α),
      List.foldl af b (splitGo (fun a => a) mf lhs xs) =
        List.foldl af (af b lhs) xs := by
  intro xs
  induction xs with
  | nil => intro lhs b; rfl
  | cons r rest ih =>
    intro lhs b
    by_cases hb : (mf lhs r).1
    · simp only [splitGo, hb, if_true]
      rw [ih (mf lhs r).2 b, haccept lhs r hb]
      simp only [List.foldl_cons]
      rw [hassoc]
    · rw [show splitGo (fun a => a) mf lhs (r :: rest) =
          (mf lhs r).2 :: splitGo (fun a => a) mf r rest by simp [splitGo, hb]]
      simp only [List.foldl_cons]
      rw [ih r (af b (mf lhs r).2), hreject lhs r (Bool.of_not_eq_true hb)]

/-- Under the contract hypotheses, eagerly re-merging the splitter's
outputs from an open accumulator gives the full left fold of the raw
items into that accumulator. -/
theorem splitGo_accumulate (af : α → α → α) (mf : α → α → Bool × α)
    (hassoc : ∀ a b c, af (af a b) c = af a (af b c))
    (haccept : ∀ a b, (mf a b).1 = true → (mf a b).2 = af a b)
    (hreject : ∀ a b, (mf a b).1 = false → (mf a b).2 = a) :
    ∀ (xs : List α) (lhs : α),
      accumulate (fun a => a) af (splitGo (fun a => a) mf lhs xs) =
        some (List.foldl af lhs xs) := by
  intro xs
  induction xs with
  | nil => intro lhs; rfl
  | cons r rest ih =>
    intro lhs
    by_cases hb : (mf lhs r).1
    · simp only [splitGo, hb, if_true]
      rw [ih (mf lhs r).2, haccept lhs r hb]
      simp only [List.foldl_cons]
    · rw [show splitGo (fun a => a) mf lhs (r :: rest) =
          (mf lhs r).2 :: splitGo (fun a => a) mf r rest by simp [splitGo, hb]]
      show some (List.foldl af ((mf lhs r).2 : α) (splitGo (fun a => a) mf r rest)) = _
      rw [splitGo_foldl af mf hassoc haccept hreject rest r (mf lhs r).2,
        hreject lhs r (Bool.of_not_eq_true hb)]
      simp only [List.foldl_cons]

end MergeTotalLemmas

section ClaimTheorems

/-- Claim C1, counterexample: for the source `[Ok(60), Err(())]` over the
threshold-100 fixture, the fallible splitter's first poll emits the
failure but leaves the state `Accumulable (Small 60)` — not `Consumed`
(`is_consumed` is still false) — and the very next poll emits the pending
accumulator as `Ok (Small 60)`.  So the splitter does not move to the
terminal state on failure, the open accumulator is not discarded, and the
entire output is not the single item `Err(())`. -/
theorem C1_counterexample :
    TryPartiallyAccumulated.poll_next (fun v : VolumeSize 100 => v)
        VolumeSize.maybe_accumulate_from .Uninit
        [Except.ok (VolumeSize.new 100 60), Except.error ()] =
      .ready (.Accumulable (VolumeSize.new 100 60), []) (some (Except.error ()))
    ∧ AccumulatedState.is_consumed
        (.Accumulable (VolumeSize.new 100 60) : AccumulatedState (VolumeSize 100)) = false
    ∧ TryPartiallyAccumulated.poll_next (fun v : VolumeSize 100 => v)
        VolumeSize.maybe_accumulate_from (.Accumulable (VolumeSize.new 100 60))
        ([] : List (Except Unit (VolumeSize 100))) =
      .ready (.Uninit, []) (some (Except.ok (VolumeSize.new 100 60))) :=
  ⟨rfl, rfl, rfl⟩

/-- Claim C1 (amended): when the fallible lazy run-splitter fetches a
failure — as the first item of a prospective run or while an Accumulator
is open — it emits that failure as its very next output, but it does not
move to the terminal (Consumed) state: the internal state (and any open
Accumulator) is left unchanged, and a pending Accumulator is emitted as a
success by a later query; for the source `[Ok(60), Err(E)]` the outputs
are `Err(E)`, then `Ok(Small 60)`, then end of stream. -/
theorem C1_amended_failure_is_next_output (Lhs V E : Type) (fr : V → Lhs)
    (mf : Lhs → V → Bool × Lhs) (e : E) (rest : List (Except E V)) (inner : Lhs) :
    TryPartiallyAccumulated.poll_next fr mf .Uninit (Except.error e :: rest) =
      .ready (.Uninit, rest) (some (Except.error e))
    ∧ TryPartiallyAccumulated.poll_next fr mf (.Accumulable inner)
        (Except.error e :: rest) =
      .ready (.Accumulable inner, rest) (some (Except.error e))
    ∧ AccumulatedState.is_consumed (.Accumulable inner : AccumulatedState Lhs) = false
    ∧ TryPartiallyAccumulated.poll_next (fun v : VolumeSize 100 => v)
        VolumeSize.maybe_accumulate_from .Uninit
        [Except.ok (VolumeSize.new 100 60), Except.error ()] =
      .ready (.Accumulable (VolumeSize.new 100 60), []) (some (Except.error ()))
    ∧ TryPartiallyAccumulated.poll_next (fun v : VolumeSize 100 => v)
        VolumeSize.maybe_accumulate_from (.Accumulable (VolumeSize.new 100 60))
        ([] : List (Except Unit (VolumeSize 100))) =
      .ready (.Uninit, []) (some (Except.ok (VolumeSize.new 100 60)))
    ∧ TryPartiallyAccumulated.poll_next (fun v : VolumeSize 100 => v)
        VolumeSize.maybe_accumulate_from .Uninit
        ([] : List (Except Unit (VolumeSize 100))) =
      .ready (.Consumed, []) none :=
  ⟨rfl, rfl, rfl, rfl, rfl, rfl⟩

/-- Claim C2, counterexample: over the threshold-100 fixture with an empty
source, the asynchronous splitter's first poll ends the output sequence
(ready `none`, state `Consumed`), but the next poll does not return
"no more output": it is the fatal abort, which differs from every ready
`none` result. -/
theorem C2_counterexample :
    PartiallyAccumulated.poll_next (fun v : VolumeSize 100 => v)
        VolumeSize.maybe_accumulate_from .Uninit ([] : List (VolumeSize 100)) =
      .ready (.Consumed, []) none
    ∧ PartiallyAccumulated.poll_next (fun v : VolumeSize 100 => v)
        VolumeSize.maybe_accumulate_from .Consumed ([] : List (VolumeSize 100)) =
      .panicked
    ∧ (PollResult.panicked :
        PollResult (AccumulatedState (VolumeSize 100) × List (VolumeSize 100))
          (Option (VolumeSize 100))) ≠ .ready (.Consumed, []) none :=
  ⟨rfl, rfl, fun h => PollResult.noConfusion h⟩

/-- Claim C2 (amended): once the asynchronous lazy run-splitter has
observed source exhaustion it ends its output sequence by reporting
"no more output" exactly once, moving to the terminal `Consumed` state;
the fused `is_terminated` query reports terminated from that point on; but
any later query for the next output is a contract violation surfaced as a
fatal abort (a panic), not a stable `None`. -/
theorem C2_amended_terminal (Lhs Rhs : Type) (fr : Rhs → Lhs)
    (mf : Lhs → Rhs → Bool × Lhs) (s s' : AccumulatedState Lhs)
    (xs xs' ys : List Rhs)
    (h : PartiallyAccumulated.poll_next fr mf s xs = .ready (s', xs') none) :
    s' = .Consumed
    ∧ AccumulatedState.is_consumed s' = true
    ∧ PartiallyAccumulated.poll_next fr mf s' ys = .panicked := by
  have hc := PartiallyAccumulated.poll_next_none_state fr mf xs s s' xs' h
  subst hc
  exact ⟨rfl, rfl, PartiallyAccumulated.poll_next_consumed fr mf ys⟩

/-- Claim C2 (amended), witness at the threshold-100 fixture with the
empty source. -/
theorem C2_amended_terminal_witness :
    (AccumulatedState.Consumed : AccumulatedState (VolumeSize 100)) = .Consumed
    ∧ AccumulatedState.is_consumed
        (AccumulatedState.Consumed : AccumulatedState (VolumeSize 100)) = true
    ∧ PartiallyAccumulated.poll_next (fun v : VolumeSize 100 => v)
        VolumeSize.maybe_accumulate_from .Consumed [VolumeSize.new 100 3] = .panicked :=
  C2_amended_terminal (VolumeSize 100) (VolumeSize 100) (fun v => v)
    VolumeSize.maybe_accumulate_from .Uninit .Consumed [] [] [VolumeSize.new 100 3] rfl

/-- Claim C3, counterexample: both eager reducers of the code report
"no value" on the empty source, whereas the spec's identity-seeded
variant (`accumulateFromNeutral`, which does not exist in src/) returns
the identity value itself there; at the concrete identity 0 for `Volume`
the results disagree. -/
theorem C3_counterexample :
    accumulate (fun v : Volume => v) Volume.accumulate_from ([] : List Volume) = none
    ∧ Accumulated.poll (fun v : Volume => v) Volume.accumulate_from .Uninit
        ([] : List Volume) = .ready (.Consumed, []) none
    ∧ accumulateFromNeutral (0 : Volume) Volume.accumulate_from ([] : List Volume) = 0
    ∧ (none : Option Volume) ≠
        some (accumulateFromNeutral (0 : Volume) Volume.accumulate_from ([] : List Volume)) :=
  ⟨rfl, rfl, rfl, fun h => Option.noConfusion h⟩

/-- Claim C3 (amended): the capability contracts comprise exactly the
unconditional merge (`accumulate_from`, with derived `accumulate`) and the
conditional merge (`maybe_accumulate_from`, with derived
`maybe_accumulate`); no `neutral()` operation exists, and both eager
reducer variants of the engine derive the initial Accumulator from the
first Item of the source via `Lhs::from`, reporting no value on an empty
source rather than an identity value. -/
theorem C3_amended_no_neutral (Lhs Rhs : Type) (inst : Accumulable Lhs Rhs)
    (lhs : Lhs) (rhs : Rhs) (fr : Rhs → Lhs) (af : Lhs → Rhs → Lhs)
    (x : Rhs) (xs : List Rhs) :
    inst.accumulate lhs rhs = inst.accumulate_from lhs rhs
    ∧ accumulate fr af ([] : List Rhs) = none
    ∧ accumulate fr af (x :: xs) = some (List.foldl af (fr x) xs)
    ∧ Accumulated.poll fr af .Uninit ([] : List Rhs) = .ready (.Consumed, []) none
    ∧ Accumulated.poll fr af .Uninit (x :: xs) =
        .ready (.Consumed, []) (some (List.foldl af (fr x) xs)) :=
  ⟨rfl, rfl, rfl, rfl, Accumulated.poll_from_accumulable fr af xs (fr x)⟩

/-- Claim C4: the synchronous eager reducer returns the left fold of the
unconditional merge seeded with `Lhs::from` of the first item whenever the
source produced at least one item, and returns `none` exactly when the
source produced zero items. -/
theorem C4_eager_reducer (Lhs Rhs : Type) (fr : Rhs → Lhs) (af : Lhs → Rhs → Lhs)
    (x : Rhs) (rest xs : List Rhs) :
    accumulate fr af ([] : List Rhs) = none
    ∧ accumulate fr af (x :: rest) = some (List.foldl af (fr x) rest)
    ∧ (accumulate fr af xs = none ↔ xs = []) := by
  refine ⟨rfl, rfl, ?_⟩
  cases xs with
  | nil => simp [accumulate]
  | cons y ys => simp [accumulate]

/-- Claim C4, witness at the `Volume` fixture. -/
theorem C4_eager_reducer_witness :
    accumulate (fun v : Volume => v) Volume.accumulate_from ([] : List Volume) = none
    ∧ accumulate (fun v : Volume => v) Volume.accumulate_from
        [(10 : Volume), 15] =
      some (List.foldl Volume.accumulate_from ((fun v : Volume => v) 10) [15])
    ∧ (accumulate (fun v : Volume => v) Volume.accumulate_from
        [(10 : Volume), 15] = none ↔ [(10 : Volume), 15] = []) :=
  C4_eager_reducer Volume Volume (fun v => v) Volume.accumulate_from 10 [15] [10, 15]

/-- Claim C5: on every non-empty finite sequence the synchronous and the
asynchronous eager reducers produce identical final Accumulator values,
and both equal the left fold of the unconditional merge across the whole
sequence (seeded from the first item). -/
theorem C5_eager_reducers_agree (Lhs Rhs : Type) (fr : Rhs → Lhs)
    (af : Lhs → Rhs → Lhs) (x : Rhs) (xs : List Rhs) :
    accumulate fr af (x :: xs) = some (List.foldl af (fr x) xs)
    ∧ Accumulated.poll fr af .Uninit (x :: xs) =
        .ready (.Consumed, []) (some (List.foldl af (fr x) xs))
    ∧ Accumulated.poll fr af .Uninit (x :: xs) =
        .ready (.Consumed, []) (accumulate fr af (x :: xs)) :=
  ⟨rfl, Accumulated.poll_from_accumulable fr af xs (fr x),
   Accumulated.poll_from_accumulable fr af xs (fr x)⟩

/-- Claim C6: for every finite source, the runs produced by the lazy
run-splitters partition the input in order; each item after a run's seed
was accepted by `maybe_accumulate_from` into that run's evolving
Accumulator, the first item of each next run is exactly the first rejected
item, no item is dropped or duplicated (the runs' items concatenate back
to the source), and both the synchronous and the asynchronous splitter
emit exactly the accumulators of this run decomposition. -/
theorem C6_run_partition (Lhs Rhs : Type) (fr : Rhs → Lhs)
    (mf : Lhs → Rhs → Bool × Lhs) (xs : List Rhs) :
    ((runSplit fr mf xs).map Prod.snd).flatten = xs
    ∧ splitOutputs fr mf xs = (runSplit fr mf xs).map Prod.fst
    ∧ paOutputs fr mf .Uninit xs = (runSplit fr mf xs).map Prod.fst
    ∧ runsOk fr mf (runSplit fr mf xs) :=
  ⟨runSplit_flatten fr mf xs.length xs le_rfl,
   splitOutputs_eq_runSplit fr mf xs,
   (paOutputs_eq_splitOutputs fr mf xs).trans (splitOutputs_eq_runSplit fr mf xs),
   runSplit_runsOk fr mf xs.length xs le_rfl⟩

/-- Claim C7, counterexample: with the associative merge `Nat.add` and a
conditional merge that never accepts (so the accepted-merge hypothesis
holds vacuously) but mutates the accumulator while rejecting, re-merging
the splitter's outputs over `[1, 2]` gives `some 103` while eager
reduction gives `some 3`: the claim's two hypotheses do not suffice; the
rejected-leaves-unchanged half of the contract is also needed. -/
theorem C7_counterexample :
    ¬ ((∀ a b c : Nat, Nat.add (Nat.add a b) c = Nat.add a (Nat.add b c)) →
       (∀ a b : Nat, (mfMutating a b).1 = true → (mfMutating a b).2 = Nat.add a b) →
       accumulate (fun a => a) Nat.add
           (splitOutputs (fun a => a) mfMutating [1, 2]) =
         accumulate (fun a => a) Nat.add [1, 2]) := by
  intro h
  have h2 := h (fun a b c => Nat.add_assoc a b c) (fun a b hab => Bool.noConfusion hab)
  exact absurd h2 (by decide)

/-- Claim C7 (amended): for every finite sequence of items, under the
hypotheses that the unconditional merge is associative, that an accepted
`maybe_accumulate_from` performs the same update as `accumulate_from`, and
that a rejected `maybe_accumulate_from` leaves the Accumulator unchanged,
re-merging all Accumulator values yielded by the lazy run-splitter
pairwise with the unconditional merge yields the same total as eager
reduction over the whole original sequence. -/
theorem C7_amended_merge_totals (α : Type) (af : α → α → α)
    (mf : α → α → Bool × α) (xs : List α)
    (hassoc : ∀ a b c, af (af a b) c = af a (af b c))
    (haccept : ∀ a b, (mf a b).1 = true → (mf a b).2 = af a b)
    (hreject : ∀ a b, (mf a b).1 = false → (mf a b).2 = a) :
    accumulate (fun a => a) af (splitOutputs (fun a => a) mf xs) =
      accumulate (fun a => a) af xs := by
  cases xs with
  | nil => rfl
  | cons x rest =>
    show accumulate (fun a => a) af (splitGo (fun a => a) mf x rest) = _
    rw [splitGo_accumulate af mf hassoc haccept hreject rest x]
    rfl

/-- Claim C7 (amended), witness with the always-accepting sum merge over
`[1, 2, 3]`. -/
theorem C7_amended_merge_totals_witness :
    accumulate (fun a => a) Nat.add
        (splitOutputs (fun a => a) (fun a b => (true, Nat.add a b)) [1, 2, 3]) =
      accumulate (fun a => a) Nat.add [1, 2, 3] :=
  C7_amended_merge_totals Nat Nat.add (fun a b => (true, Nat.add a b)) [1, 2, 3]
    (fun a b c => Nat.add_assoc a b c) (fun _ _ _ => rfl)
    (fun _ _ hab => Bool.noConfusion hab)

/-- Claim C8: with the threshold-100 `VolumeSize` fixture, the lazy
run-splitter over the items `[60, 30, 15, 40, 70, 80, 10, 5, 3, 2, 1, 1]`
yields exactly `105 (Large), 110 (Large), 100 (Large), 2 (Small)`, in that
order. -/
theorem C8_threshold_scenario :
    splitOutputs (fun v : VolumeSize 100 => v) VolumeSize.maybe_accumulate_from
        (([60, 30, 15, 40, 70, 80, 10, 5, 3, 2, 1, 1] : List Nat).map
          (VolumeSize.new 100)) =
      [.Large 105, .Large 110, .Large 100, .Small 2] := by decide

/-- Claim C9: polling the asynchronous eager reducer again after it has
produced its result (some value or none) is a contract violation surfaced
as a fatal abort, never as a recoverable return value: every ready result
leaves the state `Consumed`, and a poll from `Consumed` is the abort. -/
theorem C9_future_repoll_aborts (Lhs Rhs : Type) (fr : Rhs → Lhs)
    (af : Lhs → Rhs → Lhs) (s s' : AccumulatedState Lhs)
    (xs xs' ys : List Rhs) (out : Option Lhs)
    (h : Accumulated.poll fr af s xs = .ready (s', xs') out) :
    Accumulated.poll fr af s' ys = .panicked := by
  have hc := Accumulated.poll_ready_state fr af xs s s' xs' out h
  subst hc
  exact Accumulated.poll_consumed fr af ys

/-- Claim C9, witness: after completing on the one-item `Volume` source,
the next poll aborts. -/
theorem C9_future_repoll_aborts_witness :
    Accumulated.poll (fun v : Volume => v) Volume.accumulate_from .Consumed
      [(3 : Volume)] = .panicked :=
  C9_future_repoll_aborts Volume Volume (fun v => v) Volume.accumulate_from
    .Uninit .Consumed [(10 : Volume)] [] [(3 : Volume)] (some 10) rfl

/-- Claim C10: the synchronous lazy run-splitter reports `none` on every
call once its source is exhausted, and this is a normal, safe outcome:
its `next` is a total function (no abort state exists in its result
type), an exhausted source yields `(none, [])`, a `none` output happens
exactly on the exhausted source, and after a `none` output every later
call again yields `(none, [])`. -/
theorem C10_iterator_safe_after_end (Lhs Rhs : Type) (fr : Rhs → Lhs)
    (mf : Lhs → Rhs → Bool × Lhs) (xs : List Rhs) :
    PartiallyAccumulated.next fr mf ([] : List Rhs) = (none, [])
    ∧ ((PartiallyAccumulated.next fr mf xs).1 = none ↔ xs = [])
    ∧ ((PartiallyAccumulated.next fr mf xs).1 = none →
        PartiallyAccumulated.next fr mf (PartiallyAccumulated.next fr mf xs).2 =
          (none, [])) := by
  refine ⟨rfl, ?_, ?_⟩
  · cases xs with
    | nil => simp [PartiallyAccumulated.next]
    | cons y ys => simp [PartiallyAccumulated.next]
  · intro hnone
    cases xs with
    | nil => rfl
    | cons y ys => simp [PartiallyAccumulated.next] at hnone

end ClaimTheorems
